import Mathlib

/-!
Shallow embedding of the primality library in `src/primes.rs` and proofs of its
specification claims.

The Rust source defines five functions:

* `is_prime (n : i32) -> bool` — sieve-backed bounded tester;
* `generate_primes (limit : i32) -> Vec<i32>` — incremental trial-division sieve,
  panicking on a negative limit;
* `is_prime_list (n : i32, p : Vec<i32>) -> bool` — trial division of `n` against a
  supplied prime list, bounded by the f32 square root of `n`;
* `is_prime_lazy (n : u128) -> bool` — odd trial division up to `n / 2`;
* `is_mersenne_prime (m : u128) -> bool` — `is_prime_lazy m && is_prime_lazy (ilog2 (m+1))`.

Machine integers are embedded as `Int` (for `i32`) and `Nat` (for `u128`); the i32/u128
ranges are carried as explicit hypotheses where a claim needs them.  No arithmetic in the
source can wrap on the paths the claims range over (the loop counters satisfy
`n + 2 ≤ limit + 1 ≤ 2^31 - 1` resp. `i + 2 ≤ n/2 + 2 < 2^128`, and the `(m+1).ilog2()`
argument is only evaluated after `is_prime_lazy m` has certified `m` prime, hence
`m ≤ 2^128 - 2`), so `Int`/`Nat` arithmetic is faithful on those paths.

The single floating-point construct of the source, the test
`(prime as f32) > (n as f32).sqrt()`, is embedded exactly: `roundF32Nat` is IEEE-754
binary32 round-to-nearest-even on naturals, and `f32gtSqrtNat` decides the comparison
against the correctly rounded square root by exact integer arithmetic (see the
comments at its definition).  All definitions are fuel-free or use structural fuel that
provably exceeds the loop count, so everything evaluates in the kernel.
-/

attribute [local instance] Nat.decidablePrime1

/-- Floor of log₂ on naturals, `ilog2 0 = 0`, computed with structural fuel so that the
kernel can evaluate it.  Models Rust `u128::ilog2` (which requires a positive argument)
and is also used to locate the binary exponent in the binary32 rounding model. -/
def ilog2Aux : Nat → Nat → Nat
  | 0, _ => 0
  | fuel + 1, n => if 2 ≤ n then ilog2Aux fuel (n / 2) + 1 else 0

/-- Floor of log₂; agrees with `Nat.log2` (proved below). -/
def ilog2 (n : Nat) : Nat := ilog2Aux n n

/-- IEEE-754 binary32 round-to-nearest-even of a natural number.  Naturals below `2^24`
are exactly representable; above, the representable grid at `n` (with `2^L ≤ n < 2^(L+1)`)
has spacing `s = 2^(L-23)`, and `n` is rounded to the nearest multiple of `s`, ties to the
multiple with even mantissa.  For every `n < 2^128` the result never overflows binary32
range, and it is a natural number throughout.  Models the Rust cast `n as f32` for
nonnegative `n`. -/
def roundF32Nat (n : Nat) : Nat :=
  if n < 2 ^ 24 then n
  else
    let s := 2 ^ (ilog2 n - 23)
    let r := n % s
    if 2 * r < s then n - r
    else if s < 2 * r then n - r + s
    else if (n / s) % 2 = 0 then n - r else n - r + s

/-- Exact integer model of the Rust f32 comparison `(prime as f32) > (n as f32).sqrt()`
for nonnegative operands.  Writing `x` for the binary32 value of `n` and `pf` for the
binary32 value of `prime`, IEEE `sqrt` returns the binary32 value nearest to `√x`
(no tie is possible: a tie would force `4·x·t²` to equal an odd square).  With
`e` such that `2^e ≤ √x < 2^(e+1)` the sqrt grid spacing is `s = 2^(e-23)`, and
`pf > round(√x)` unwinds to the exact integer test `4·x < (2·pf - s)²`, cleared of
denominators below.  For arguments reachable from `i32` inputs we always have
`x < 2^46`, i.e. `e ≤ 23`, so the first branch is the live one; the second branch
states the same inequality with the scaling on the other side. -/
def f32gtSqrtNat (prime n : Nat) : Bool :=
  let x := roundF32Nat n
  if x = 0 then decide (0 < roundF32Nat prime)
  else
    let pf := roundF32Nat prime
    let e := ilog2 x / 2
    if e ≤ 23 then
      let t := 2 ^ (23 - e)
      decide (4 * x * t ^ 2 < (2 * pf * t - 1) ^ 2)
    else
      let s := 2 ^ (e - 23)
      decide (s < 2 * pf) && decide (4 * x < (2 * pf - s) ^ 2)

/-- The comparison `(prime as f32) > (n as f32).sqrt()` on signed integers.  A negative
`n` makes `(n as f32).sqrt()` NaN, and every comparison against NaN is false; a negative
`prime` is below the (nonnegative) square root. -/
def f32gtSqrt (prime n : Int) : Bool :=
  if n < 0 then false
  else if prime < 0 then false
  else f32gtSqrtNat prime.toNat n.toNat

/-- The shared trial-division loop of Rust `is_prime` and `is_prime_list`:
scan the list `p`; on the first divisor report `some false`, on the first element whose
f32 value exceeds the f32 square root of `n` report `some true`.  `none` means the list
was exhausted, which in the source falls through to the defensive `return false`.
Rust `n % prime` is truncated remainder, `Int.tmod`. -/
def trialLoop (n : Int) : List Int → Option Bool
  | [] => none
  | prime :: rest =>
    if Int.tmod n prime = 0 then some false
    else if f32gtSqrt prime n then some true
    else trialLoop n rest

/-- Rust `is_prime_list`: the trial-division loop followed by the defensive
`return false` when the list is exhausted. -/
def is_prime_list (n : Int) (p : List Int) : Bool := (trialLoop n p).getD false

/-- The `while n < limit` loop of Rust `generate_primes`, with structural fuel.
Each iteration tests the odd candidate `n` against the primes found so far, appends it
on success and advances to `n + 2`.  The fuel passed by `generate_primes` strictly
exceeds the iteration count, so the fuel-exhaustion branch is never taken there
(made precise by the termination claim). -/
def genLoop (limit : Int) : Nat → List Int → Int → List Int
  | 0, p, _ => p
  | fuel + 1, p, n =>
    if n < limit then genLoop limit fuel (if is_prime_list n p then p ++ [n] else p) (n + 2)
    else p

/-- Rust `generate_primes`.  The `panic!()` on a negative limit is modelled as `none`;
a normal return as `some`.  The list is seeded with `[2, 3]` and odd candidates are
scanned from `5` while `n < limit`. -/
def generate_primes (limit : Int) : Option (List Int) :=
  if limit < 0 then none
  else some (genLoop limit limit.toNat [2, 3] 5)

/-- Rust `is_prime`.  `n == 2` and `n <= 1` are handled first; otherwise the prime list
up to `(n / 2) + 1` is generated (Rust `/` truncates toward zero, which agrees with the
Euclidean `/` used here because `n ≥ 3` holds on this path) and scanned by the same loop
as `is_prime_list`, with the defensive `return false` when the scan exhausts the list.
The `none` branch is unreachable (`n / 2 + 1 ≥ 0`), as proved in the error-model claim. -/
def is_prime (n : Int) : Bool :=
  if n = 2 then true
  else if n ≤ 1 then false
  else
    match generate_primes (n / 2 + 1) with
    | some p => (trialLoop n p).getD false
    | none => false

/-- The `while i <= n / 2` loop of Rust `is_prime_lazy`, with structural fuel: trial
division of `n` by the odd numbers `i, i + 2, …` up to `n / 2`.  The fuel passed by
`is_prime_lazy` strictly exceeds the iteration count. -/
def lazyLoop (n : Nat) : Nat → Nat → Bool
  | 0, _ => true
  | fuel + 1, i =>
    if i ≤ n / 2 then
      if n % i = 0 then false else lazyLoop n fuel (i + 2)
    else true

/-- Rust `is_prime_lazy`: unbounded trial division by odd numbers from 3 to `n / 2`. -/
def is_prime_lazy (n : Nat) : Bool :=
  if n = 1 then false
  else if n = 2 then true
  else if n % 2 = 0 then false
  else lazyLoop n (n / 2 + 1) 3

/-- Rust `is_mersenne_prime m`: true when `m` and `floor (log2 (m + 1))` both pass
`is_prime_lazy`.  The Rust source only evaluates `(m + 1).ilog2()` after
`is_prime_lazy m` succeeded; `Bool.and` is value-equal to that short-circuit. -/
def is_mersenne_prime (m : Nat) : Bool :=
  is_prime_lazy m && is_prime_lazy (ilog2 (m + 1))

/-- Specification-side list: the primes below `m`, in increasing order, as integers.
Used to state what `generate_primes` must return. -/
def plist (m : Nat) : List Int :=
  ((List.range m).filter fun k => decide (Nat.Prime k)).map (Nat.cast : Nat → Int)

/-! ### Basic facts about `ilog2` -/

theorem ilog2Aux_spec : ∀ fuel n : Nat, 1 ≤ n → n ≤ fuel →
    2 ^ ilog2Aux fuel n ≤ n ∧ n < 2 ^ (ilog2Aux fuel n + 1) := by
  intro fuel
  induction fuel with
  | zero => intro n h1 h2; omega
  | succ f ih =>
    intro n h1 h2
    simp only [ilog2Aux]
    by_cases h : 2 ≤ n
    · rw [if_pos h]
      have hrec := ih (n / 2) (by omega) (by omega)
      obtain ⟨ha, hb⟩ := hrec
      constructor
      · calc 2 ^ (ilog2Aux f (n / 2) + 1) = 2 * 2 ^ ilog2Aux f (n / 2) := by ring
          _ ≤ 2 * (n / 2) := by omega
          _ ≤ n := by omega
      · calc n < 2 * (n / 2) + 2 := by omega
          _ ≤ 2 * 2 ^ (ilog2Aux f (n / 2) + 1) := by omega
          _ = 2 ^ (ilog2Aux f (n / 2) + 1 + 1) := by ring
    · rw [if_neg h]
      simpa using by omega

theorem ilog2_spec (n : Nat) (h : 1 ≤ n) : 2 ^ ilog2 n ≤ n ∧ n < 2 ^ (ilog2 n + 1) :=
  ilog2Aux_spec n n h le_rfl

theorem log2_unique {n a b : Nat} (ha1 : 2 ^ a ≤ n) (ha2 : n < 2 ^ (a + 1))
    (hb1 : 2 ^ b ≤ n) (hb2 : n < 2 ^ (b + 1)) : a = b := by
  by_contra hne
  rcases Nat.lt_or_ge a b with h | h
  · have : 2 ^ (a + 1) ≤ 2 ^ b := Nat.pow_le_pow_right (by omega) (by omega)
    omega
  · have hba : b < a := by omega
    have : 2 ^ (b + 1) ≤ 2 ^ a := Nat.pow_le_pow_right (by omega) (by omega)
    omega

/-- The fuel-driven `ilog2` agrees with the library floor-log₂, so the embedding of
Rust `ilog2` can be read through `Nat.log2` in specification statements. -/
theorem ilog2_eq_log2 (n : Nat) : ilog2 n = Nat.log2 n := by
  rcases Nat.eq_zero_or_pos n with h0 | h1
  · subst h0
    rw [Nat.log2]
    simp [ilog2, ilog2Aux]
  · obtain ⟨ha, hb⟩ := ilog2_spec n h1
    exact log2_unique ha hb (Nat.log2_self_le (by omega)) Nat.lt_log2_self

/-- An upper bound on `ilog2` from an upper bound on the argument. -/
theorem ilog2_le_of_lt {n k : Nat} (h : n < 2 ^ (k + 1)) : ilog2 n ≤ k := by
  rcases Nat.eq_zero_or_pos n with h0 | h1
  · subst h0; simp [ilog2, ilog2Aux]
  · obtain ⟨ha, _⟩ := ilog2_spec n h1
    by_contra hc
    have : 2 ^ (k + 1) ≤ 2 ^ ilog2 n := Nat.pow_le_pow_right (by omega) (by omega)
    omega

/-! ### Bounds for binary32 rounding -/

theorem roundF32Nat_eq_of_lt {n : Nat} (h : n < 2 ^ 24) : roundF32Nat n = n := by
  unfold roundF32Nat
  rw [if_pos h]

/-- For `n` in the i32 range the binary32 rounding error is at most half of the grid
spacing `2^(L-23) ≤ 2^7`, i.e. at most 64. -/
theorem roundF32Nat_bounds {n : Nat} (h31 : n < 2 ^ 31) :
    roundF32Nat n ≤ n + 64 ∧ n ≤ roundF32Nat n + 64 := by
  unfold roundF32Nat
  by_cases h24 : n < 2 ^ 24
  · rw [if_pos h24]; omega
  · rw [if_neg h24]
    have h1 : 1 ≤ n := by omega
    obtain ⟨hs1, hs2⟩ := ilog2_spec n h1
    have hL24 : 24 ≤ ilog2 n := by
      by_contra hc
      have : 2 ^ (ilog2 n + 1) ≤ 2 ^ 24 := Nat.pow_le_pow_right (by omega) (by omega)
      omega
    have hL30 : ilog2 n ≤ 30 := by
      by_contra hc
      have : 2 ^ 31 ≤ 2 ^ ilog2 n := Nat.pow_le_pow_right (by omega) (by omega)
      omega
    have hs_le : 2 ^ (ilog2 n - 23) ≤ 128 := by
      calc 2 ^ (ilog2 n - 23) ≤ 2 ^ 7 := Nat.pow_le_pow_right (by omega) (by omega)
        _ = 128 := by norm_num
    have hs_pos : 0 < 2 ^ (ilog2 n - 23) := Nat.pos_pow_of_pos _ (by omega)
    have hr : n % 2 ^ (ilog2 n - 23) < 2 ^ (ilog2 n - 23) := Nat.mod_lt _ hs_pos
    have hrn : n % 2 ^ (ilog2 n - 23) ≤ n := Nat.mod_le _ _
    dsimp only
    split_ifs <;> omega

/-! ### Deciding the f32 square-root comparison by integer bounds

For arguments in the i32 range the binary32 value `x` of `n` satisfies `x < 2^32`, so the
square-root exponent `e = ilog2 x / 2` is at most 15 and the first branch of
`f32gtSqrtNat` is the live one.  The two lemmas below reduce the comparison to the exact
integer facts `P² ≤ x` (comparison is false) and `x < (P-1)²` (comparison is true). -/

theorem ilog2_half_le_23 {x : Nat} (hx : x < 2 ^ 32) : ilog2 x / 2 ≤ 23 := by
  have : ilog2 x ≤ 31 := ilog2_le_of_lt (by omega)
  omega

theorem f32gtSqrtNat_eq_false {P n : Nat} (hP : P < 2 ^ 24) (h31 : n < 2 ^ 31)
    (hle : P ^ 2 ≤ roundF32Nat n) : f32gtSqrtNat P n = false := by
  unfold f32gtSqrtNat
  dsimp only
  by_cases hx0 : roundF32Nat n = 0
  · rw [if_pos hx0]
    have hP0 : P = 0 := by nlinarith [hle, hx0.le, sq_nonneg P]
    subst hP0
    rw [roundF32Nat_eq_of_lt (by norm_num)]
    simp
  · rw [if_neg hx0]
    have hxub : roundF32Nat n ≤ n + 64 := (roundF32Nat_bounds h31).1
    have hE : ilog2 (roundF32Nat n) / 2 ≤ 23 := ilog2_half_le_23 (by omega)
    rw [if_pos hE, roundF32Nat_eq_of_lt hP]
    simp only [decide_eq_false_iff_not, not_lt]
    calc (2 * P * 2 ^ (23 - ilog2 (roundF32Nat n) / 2) - 1) ^ 2
        ≤ (2 * P * 2 ^ (23 - ilog2 (roundF32Nat n) / 2)) ^ 2 :=
          Nat.pow_le_pow_left (by omega) 2
      _ = 4 * P ^ 2 * (2 ^ (23 - ilog2 (roundF32Nat n) / 2)) ^ 2 := by ring
      _ ≤ 4 * roundF32Nat n * (2 ^ (23 - ilog2 (roundF32Nat n) / 2)) ^ 2 := by gcongr

theorem f32gtSqrtNat_eq_true {P n : Nat} (hP2 : 2 ≤ P) (hP : P < 2 ^ 24) (h31 : n < 2 ^ 31)
    (hlt : roundF32Nat n < (P - 1) ^ 2) : f32gtSqrtNat P n = true := by
  unfold f32gtSqrtNat
  dsimp only
  by_cases hx0 : roundF32Nat n = 0
  · rw [if_pos hx0, roundF32Nat_eq_of_lt hP]
    simp only [decide_eq_true_eq]
    omega
  · rw [if_neg hx0]
    have hxub : roundF32Nat n ≤ n + 64 := (roundF32Nat_bounds h31).1
    have hE : ilog2 (roundF32Nat n) / 2 ≤ 23 := ilog2_half_le_23 (by omega)
    rw [if_pos hE, roundF32Nat_eq_of_lt hP]
    simp only [decide_eq_true_eq]
    have ht : 1 ≤ 2 ^ (23 - ilog2 (roundF32Nat n) / 2) := Nat.one_le_two_pow
    generalize 2 ^ (23 - ilog2 (roundF32Nat n) / 2) = t at ht
    generalize hxg : roundF32Nat n = x at hlt hx0
    have h2Pt : 1 ≤ 2 * P * t := Nat.mul_pos (Nat.mul_pos (by omega) (by omega)) (by omega)
    have hx1 : (x : Int) < ((P : Int) - 1) ^ 2 := by
      have := hlt
      zify [show 1 ≤ P by omega] at this
      exact this
    zify [h2Pt]
    have htZ : (1 : Int) ≤ (t : Int) := by exact_mod_cast ht
    have hPZ : (2 : Int) ≤ (P : Int) := by exact_mod_cast hP2
    have htt : (t : Int) ≤ (t : Int) ^ 2 := by nlinarith [htZ]
    nlinarith [mul_le_mul_of_nonneg_right (show (x : Int) + 1 ≤ ((P : Int) - 1) ^ 2 by omega)
        (show (0 : Int) ≤ 4 * (t : Int) ^ 2 by positivity),
      mul_le_mul_of_nonneg_left htt (show (0 : Int) ≤ 8 * (P : Int) by positivity),
      htZ, hPZ]

/-! ### Cast plumbing between the `Int` embedding and `Nat` number theory -/

theorem tmod_natCast (a b : Nat) : Int.tmod (a : Int) (b : Int) = ((a % b : Nat) : Int) := by
  rw [Int.tmod_eq_emod (by positivity) (by positivity)]
  push_cast
  rfl

theorem tmod_natCast_eq_zero {a b : Nat} : Int.tmod (a : Int) (b : Int) = 0 ↔ b ∣ a := by
  rw [tmod_natCast, Nat.dvd_iff_mod_eq_zero]
  exact_mod_cast Iff.rfl

theorem f32gtSqrt_natCast (P n : Nat) : f32gtSqrt (P : Int) (n : Int) = f32gtSqrtNat P n := by
  unfold f32gtSqrt
  rw [if_neg (by omega), if_neg (by omega), Int.toNat_natCast, Int.toNat_natCast]

/-! ### Behaviour of the trial-division loop on structured lists -/

theorem trialLoop_append {n : Int} {l1 l2 : List Int}
    (h : ∀ P ∈ l1, ¬Int.tmod n P = 0 ∧ f32gtSqrt P n = false) :
    trialLoop n (l1 ++ l2) = trialLoop n l2 := by
  induction l1 with
  | nil => rfl
  | cons a l ih =>
    obtain ⟨h1, h2⟩ := h a (List.mem_cons_self a l)
    simp only [List.cons_append, trialLoop, if_neg h1, h2]
    simpa using ih fun P hP => h P (List.mem_cons_of_mem a hP)

theorem trialLoop_cons_dvd {n P : Int} (h : Int.tmod n P = 0) (l : List Int) :
    trialLoop n (P :: l) = some false := by
  simp [trialLoop, h]

theorem trialLoop_eq_some_true {n : Int} {l : List Int}
    (hnd : ∀ P ∈ l, ¬Int.tmod n P = 0) (hex : ∃ P ∈ l, f32gtSqrt P n = true) :
    trialLoop n l = some true := by
  induction l with
  | nil => simp at hex
  | cons a l ih =>
    have ha := hnd a (List.mem_cons_self a l)
    simp only [trialLoop, if_neg ha]
    by_cases hc : f32gtSqrt a n = true
    · rw [hc]
      simp
    · rw [Bool.not_eq_true] at hc
      rw [hc]
      simp only [Bool.false_eq_true, if_false]
      refine ih (fun P hP => hnd P (List.mem_cons_of_mem a hP)) ?_
      obtain ⟨P, hPmem, hPtrue⟩ := hex
      rcases List.mem_cons.mp hPmem with rfl | hPl
      · rw [hPtrue] at hc
        simp at hc
      · exact ⟨P, hPl, hPtrue⟩

/-! ### The specification-side prime list -/

theorem mem_plist {z : Int} {m : Nat} :
    z ∈ plist m ↔ ∃ k : Nat, Nat.Prime k ∧ k < m ∧ z = (k : Int) := by
  constructor
  · intro hz
    obtain ⟨k, hk, rfl⟩ := List.mem_map.mp hz
    obtain ⟨hkr, hkp⟩ := List.mem_filter.mp hk
    exact ⟨k, of_decide_eq_true hkp, List.mem_range.mp hkr, rfl⟩
  · rintro ⟨k, h1, h2, rfl⟩
    exact List.mem_map.mpr ⟨k, List.mem_filter.mpr ⟨List.mem_range.mpr h2, decide_eq_true h1⟩, rfl⟩

theorem natCast_mem_plist {k m : Nat} : (k : Int) ∈ plist m ↔ Nat.Prime k ∧ k < m := by
  rw [mem_plist]
  constructor
  · rintro ⟨j, hj1, hj2, hj3⟩
    have : j = k := by exact_mod_cast hj3.symm
    subst this
    exact ⟨hj1, hj2⟩
  · rintro ⟨h1, h2⟩
    exact ⟨k, h1, h2, rfl⟩

theorem plist_sorted (m : Nat) : List.Pairwise (· < ·) (plist m) := by
  unfold plist
  rw [List.pairwise_map]
  exact ((List.pairwise_lt_range m).filter _).imp fun {a b} h => by exact_mod_cast h

theorem plist_split {q m : Nat} (hq : Nat.Prime q) (hqm : q < m) :
    ∃ tail, plist m = plist q ++ (q : Int) :: tail := by
  refine ⟨((List.map (fun x => q + x) (List.map Nat.succ (List.range (m - q - 1)))).filter
      (fun k => decide (Nat.Prime k))).map (Nat.cast : Nat → Int), ?_⟩
  conv_lhs => rw [plist, show m = q + ((m - q - 1) + 1) from by omega]
  rw [List.range_add, List.filter_append, List.map_append, List.range_succ_eq_map,
    List.map_cons, List.filter_cons]
  simp only [Nat.add_zero]
  rw [if_pos (decide_eq_true hq), List.map_cons]
  rfl

theorem plist_succ (m : Nat) :
    plist (m + 1) = plist m ++ (if Nat.Prime m then [(m : Int)] else []) := by
  by_cases h : Nat.Prime m <;>
    simp [plist, List.range_succ, List.filter_append, List.filter_cons, h]

/-! ### The trial loop decides primality against a prime prefix

`trialLoop n (plist m)` exits with `some false` on every even `n ≥ 4` and every odd
composite `n` (at the minimal prime factor, which is reached because the f32 comparison
cannot fire before it), and with `some true` on every prime `n` as soon as the prefix
contains some prime `P` with `x < (P-1)²` for `x` the binary32 value of `n` (Bertrand's
postulate provides one below `n / 2`). -/

theorem plist_two : plist 2 = [] := by decide

theorem plist_five : plist 5 = [2, 3] := by decide

theorem trialLoop_even {N : Nat} (h2 : 2 ∣ N) {m : Nat} (hm : 3 ≤ m) :
    trialLoop (N : Int) (plist m) = some false := by
  obtain ⟨tail, ht⟩ := @plist_split 2 m Nat.prime_two (by omega)
  rw [ht, plist_two, List.nil_append]
  exact trialLoop_cons_dvd (tmod_natCast_eq_zero.mpr h2) tail

theorem trialLoop_comp {N : Nat} (h5 : 5 ≤ N) (h31 : N < 2 ^ 31)
    (hcomp : ¬Nat.Prime N) {m : Nat} (hm : N.minFac < m) :
    trialLoop (N : Int) (plist m) = some false := by
  have hq : Nat.Prime N.minFac := Nat.minFac_prime (by omega)
  have hqd : N.minFac ∣ N := Nat.minFac_dvd N
  have hq2 : N.minFac ^ 2 ≤ N := Nat.minFac_sq_le_self (by omega) hcomp
  have hqsqrt : N.minFac ≤ Nat.sqrt N := Nat.le_sqrt.mpr (by nlinarith)
  have hsqrt16 : Nat.sqrt N < 2 ^ 16 :=
    Nat.sqrt_lt.mpr (lt_of_lt_of_le h31 (by norm_num))
  obtain ⟨tail, ht⟩ := plist_split hq hm
  rw [ht, trialLoop_append ?skip]
  · exact trialLoop_cons_dvd (tmod_natCast_eq_zero.mpr hqd) tail
  case skip =>
    intro z hz
    obtain ⟨P, hPp, hPq, rfl⟩ := mem_plist.mp hz
    refine ⟨?_, ?_⟩
    · rw [tmod_natCast_eq_zero]
      intro hdvd
      have := Nat.minFac_le_of_dvd hPp.two_le hdvd
      omega
    · rw [f32gtSqrt_natCast]
      refine f32gtSqrtNat_eq_false (by omega) h31 ?_
      obtain ⟨hub, hlb⟩ := roundF32Nat_bounds h31
      by_cases h24 : N < 2 ^ 24
      · rw [roundF32Nat_eq_of_lt h24]
        have : P ^ 2 < N.minFac ^ 2 := Nat.pow_lt_pow_left hPq (by norm_num)
        omega
      · by_cases hq32 : N.minFac ≤ 32
        · have h1 : P ^ 2 < N.minFac ^ 2 := Nat.pow_lt_pow_left hPq (by norm_num)
          have h2 : N.minFac ^ 2 ≤ 1024 := by nlinarith
          omega
        · have ha : P ≤ N.minFac - 1 := by omega
          have h1 : P ^ 2 ≤ (N.minFac - 1) ^ 2 := Nat.pow_le_pow_left ha 2
          have h2 : (N.minFac - 1) ^ 2 + 2 * N.minFac = N.minFac ^ 2 + 1 := by
            have h3 : 1 ≤ N.minFac := by omega
            zify [h3]
            ring
          omega

theorem trialLoop_prime {N : Nat} (hp : Nat.Prime N) (h31 : N < 2 ^ 31) {m : Nat}
    (hm : m ≤ N) {P : Nat} (hPp : Nat.Prime P) (hPm : P < m) (hP24 : P < 2 ^ 24)
    (hPx : roundF32Nat N < (P - 1) ^ 2) :
    trialLoop (N : Int) (plist m) = some true := by
  apply trialLoop_eq_some_true
  · intro z hz
    obtain ⟨k, hkp, hkm, rfl⟩ := mem_plist.mp hz
    rw [tmod_natCast_eq_zero]
    intro hdvd
    rcases hp.eq_one_or_self_of_dvd k hdvd with h1 | h1
    · exact absurd h1 hkp.one_lt.ne'
    · omega
  · refine ⟨(P : Int), natCast_mem_plist.mpr ⟨hPp, hPm⟩, ?_⟩
    rw [f32gtSqrt_natCast]
    exact f32gtSqrtNat_eq_true hPp.two_le hP24 h31 hPx

/-- Bertrand's postulate packages the witness prime needed by `trialLoop_prime`:
for `72 ≤ N < 2^31` there is a prime `P ≤ N / 2` with `x < (P-1)²` for the binary32
value `x` of `N`. -/
theorem bert_ex {N : Nat} (h72 : 72 ≤ N) (h31 : N < 2 ^ 31) :
    ∃ P, Nat.Prime P ∧ P ≤ N / 2 ∧ P < 2 ^ 24 ∧ roundF32Nat N < (P - 1) ^ 2 := by
  obtain ⟨P, hPp, hPlt, hPle⟩ :=
    Nat.exists_prime_lt_and_le_two_mul (Nat.sqrt (N + 64) + 1) (by omega)
  have ha8 : 8 ≤ Nat.sqrt N := Nat.le_sqrt.mpr (by omega)
  have haN : Nat.sqrt N * Nat.sqrt N ≤ N := Nat.sqrt_le N
  have ha8N : 8 * Nat.sqrt N ≤ N := by nlinarith
  have hs64 : Nat.sqrt (N + 64) ≤ Nat.sqrt N + 8 := by
    have h9 : Nat.sqrt (N + 64) < Nat.sqrt N + 9 := by
      rw [Nat.sqrt_lt]
      have hN1 : N < (Nat.sqrt N + 1) * (Nat.sqrt N + 1) := Nat.lt_succ_sqrt N
      nlinarith
    omega
  have hsqrt_ub : Nat.sqrt N ≤ 46340 := by
    have : Nat.sqrt N < 46341 := Nat.sqrt_lt.mpr (by omega)
    omega
  refine ⟨P, hPp, ?_, by omega, ?_⟩
  · omega
  · have hub : roundF32Nat N ≤ N + 64 := (roundF32Nat_bounds h31).1
    have hP1 : Nat.sqrt (N + 64) + 1 ≤ P - 1 := by omega
    have hlt : N + 64 < (Nat.sqrt (N + 64) + 1) * (Nat.sqrt (N + 64) + 1) :=
      Nat.lt_succ_sqrt (N + 64)
    have hsq : (Nat.sqrt (N + 64) + 1) ^ 2 ≤ (P - 1) ^ 2 := Nat.pow_le_pow_left hP1 2
    nlinarith

/-! ### Correctness of the sequential sieve -/

theorem not_prime_even_succ {n : Nat} (hodd : n % 2 = 1) (h5 : 5 ≤ n) :
    ¬Nat.Prime (n + 1) := by
  intro h
  rcases h.eq_one_or_self_of_dvd 2 (by omega) with h3 | h3 <;> omega

theorem plist_add_two {n : Nat} (hodd : n % 2 = 1) (h5 : 5 ≤ n) :
    plist (n + 2) = plist n ++ (if Nat.Prime n then [(n : Int)] else []) := by
  rw [show n + 2 = (n + 1) + 1 from rfl, plist_succ, plist_succ,
    if_neg (not_prime_even_succ hodd h5), List.append_nil]

set_option maxRecDepth 40000 in
/-- During sequential generation, a prime candidate is accepted: the loop exits with
`some true`. -/
theorem trialLoop_plist_self_of_prime {N : Nat} (hp : Nat.Prime N) (h5 : 5 ≤ N)
    (h31 : N < 2 ^ 31) : trialLoop (N : Int) (plist N) = some true := by
  by_cases h72 : 72 ≤ N
  · obtain ⟨P, hPp, hPle, hP24, hPx⟩ := bert_ex h72 h31
    exact trialLoop_prime hp h31 le_rfl hPp (by omega) hP24 hPx
  · have h72n : N < 72 := by omega
    interval_cases N <;> first
      | decide
      | exact absurd hp (by norm_num)

/-- During sequential generation, a composite odd candidate is rejected: the loop exits
with `some false` at the minimal prime factor. -/
theorem trialLoop_plist_self_of_comp {N : Nat} (hc : ¬Nat.Prime N) (h5 : 5 ≤ N)
    (h31 : N < 2 ^ 31) : trialLoop (N : Int) (plist N) = some false := by
  apply trialLoop_comp h5 h31 hc
  have h2 : 2 ≤ N.minFac := (Nat.minFac_prime (by omega)).two_le
  have hsq := Nat.minFac_sq_le_self (show 0 < N by omega) hc
  nlinarith

/-- Loop invariant of `generate_primes`: starting from the primes below an odd candidate
`n ≥ 5` with enough fuel, the loop returns exactly the primes below
`max n limit` (`n` if the loop body never runs). -/
theorem genLoop_inv {limit : Int} (h31 : limit < 2 ^ 31) :
    ∀ (fuel : Nat) (n : Nat), n % 2 = 1 → 5 ≤ n → limit ≤ (n : Int) + 2 * (fuel : Int) →
      genLoop limit fuel (plist n) (n : Int) = plist (max n limit.toNat) := by
  intro fuel
  induction fuel with
  | zero =>
    intro n hodd h5 hle
    rw [genLoop, show max n limit.toNat = n from by omega]
  | succ f ih =>
    intro n hodd h5 hle
    rw [genLoop]
    by_cases hlt : (n : Int) < limit
    · rw [if_pos hlt]
      have hn31 : n < 2 ^ 31 := by omega
      have hstep : (if is_prime_list (n : Int) (plist n) then plist n ++ [(n : Int)]
          else plist n) = plist (n + 2) := by
        by_cases hp : Nat.Prime n
        · simp only [is_prime_list, trialLoop_plist_self_of_prime hp h5 hn31,
            Option.getD_some, if_true]
          rw [plist_add_two hodd h5, if_pos hp]
        · simp only [is_prime_list, trialLoop_plist_self_of_comp hp h5 hn31,
            Option.getD_some, Bool.false_eq_true, if_false]
          rw [plist_add_two hodd h5, if_neg hp, List.append_nil]
      rw [hstep, show (n : Int) + 2 = ((n + 2 : Nat) : Int) from by push_cast; ring,
        ih (n + 2) (by omega) (by omega) (by push_cast; push_cast at hle; omega)]
      rcases Nat.lt_or_ge limit.toNat (n + 2) with hc | hc
      · rw [show max (n + 2) limit.toNat = n + 2 from by omega,
          show max n limit.toNat = n + 1 from by omega,
          show n + 2 = (n + 1) + 1 from rfl, plist_succ,
          if_neg (not_prime_even_succ hodd h5), List.append_nil]
      · rw [show max (n + 2) limit.toNat = limit.toNat from by omega,
          show max n limit.toNat = limit.toNat from by omega]
    · rw [if_neg hlt, show max n limit.toNat = n from by omega]

/-- What `generate_primes` returns on the i32 range: exactly the primes below the limit,
with the unconditional seed `[2, 3]` showing up as `plist 5` for limits below 5. -/
theorem generate_primes_eq {limit : Int} (h0 : 0 ≤ limit) (h31 : limit < 2 ^ 31) :
    generate_primes limit = some (plist (max 5 limit.toNat)) := by
  unfold generate_primes
  rw [if_neg (by omega)]
  have h := genLoop_inv h31 limit.toNat 5 (by norm_num) (by norm_num) (by omega)
  rw [plist_five] at h
  simpa using h

set_option maxRecDepth 40000 in
/-- The bounded tester agrees with primality on the whole i32 range (stated here on
natural inputs; the signed wrapper claims follow). -/
theorem is_prime_natCast_iff (N : Nat) (h31 : N < 2 ^ 31) :
    is_prime (N : Int) = true ↔ Nat.Prime N := by
  unfold is_prime
  by_cases hN2 : N = 2
  · subst hN2
    rw [if_pos (by norm_num)]
    exact iff_of_true rfl (by norm_num)
  · rw [if_neg (by omega)]
    by_cases hN1 : N ≤ 1
    · rw [if_pos (by omega)]
      exact iff_of_false (by simp) fun hp => by have := hp.two_le; omega
    · rw [if_neg (by omega)]
      have hN3 : 3 ≤ N := by omega
      rw [generate_primes_eq (by omega) (by omega),
        show ((N : Int) / 2 + 1).toNat = N / 2 + 1 from by omega]
      show (trialLoop (N : Int) (plist (max 5 (N / 2 + 1)))).getD false = true ↔ Nat.Prime N
      by_cases heven : N % 2 = 0
      · rw [trialLoop_even (by omega) (by omega)]
        refine iff_of_false (by simp) fun hp => ?_
        rcases hp.eq_one_or_self_of_dvd 2 (by omega) with h | h <;> omega
      · by_cases hsmall : N < 72
        · interval_cases N <;> first
            | exact absurd rfl heven
            | exact iff_of_true (by decide) (by norm_num)
            | exact iff_of_false (by decide) (by norm_num)
        · by_cases hp : Nat.Prime N
          · obtain ⟨P, hPp, hPle, hP24, hPx⟩ := @bert_ex N (by omega) (by omega)
            rw [@trialLoop_prime N hp (by omega) (max 5 (N / 2 + 1)) (by omega)
              P hPp (by omega) hP24 hPx]
            exact iff_of_true rfl hp
          · have hq2 : 2 ≤ N.minFac := (Nat.minFac_prime (by omega)).two_le
            have hqsq := Nat.minFac_sq_le_self (show 0 < N by omega) hp
            have hsqrtle : N.minFac ≤ Nat.sqrt N := Nat.le_sqrt.mpr (by nlinarith)
            have h2a : 2 * Nat.sqrt N ≤ N := by
              nlinarith [Nat.sqrt_le N, Nat.le_sqrt.mpr (show 8 * 8 ≤ N by omega)]
            rw [trialLoop_comp (by omega) (by omega) hp (by omega)]
            exact iff_of_false (by simp) hp

/-! ### Correctness of the unbounded tester -/

theorem lazyLoop_true_iff (n : Nat) : ∀ fuel i : Nat, n / 2 < i + 2 * fuel →
    (lazyLoop n fuel i = true ↔
      ∀ j, i ≤ j → j ≤ n / 2 → j % 2 = i % 2 → ¬j ∣ n) := by
  intro fuel
  induction fuel with
  | zero =>
    intro i hf
    rw [lazyLoop]
    constructor
    · intro _ j hj1 hj2 hj3 hj4
      omega
    · intro _
      rfl
  | succ f ih =>
    intro i hf
    rw [lazyLoop]
    by_cases hle : i ≤ n / 2
    · rw [if_pos hle]
      by_cases hdvd : n % i = 0
      · rw [if_pos hdvd]
        constructor
        · intro h
          cases h
        · intro h
          exact absurd (Nat.dvd_of_mod_eq_zero hdvd) (h i le_rfl hle rfl)
      · rw [if_neg hdvd]
        rw [ih (i + 2) (by omega)]
        constructor
        · intro h j hj1 hj2 hj3
          rcases Nat.lt_or_ge j (i + 2) with hj | hj
          · have hji : j = i := by omega
            subst hji
            intro hdj
            exact hdvd (Nat.dvd_iff_mod_eq_zero.mp hdj)
          · exact h j hj hj2 (by omega)
        · intro h j hj1 hj2 hj3
          exact h j (by omega) hj2 (by omega)
    · rw [if_neg hle]
      constructor
      · intro _ j hj1 hj2 hj3 hj4
        omega
      · intro _
        rfl

/-- An odd composite `n ≥ 3` has an odd divisor between `3` and `n / 2`. -/
theorem odd_comp_divisor {n : Nat} (hodd : n % 2 = 1) (h3 : 3 ≤ n) (hp : ¬Nat.Prime n) :
    ∃ i, i % 2 = 1 ∧ 3 ≤ i ∧ i ≤ n / 2 ∧ i ∣ n := by
  have hmf2 : 2 ≤ n.minFac := (Nat.minFac_prime (by omega)).two_le
  have hmfd : n.minFac ∣ n := Nat.minFac_dvd n
  have hmfo : n.minFac % 2 = 1 := by
    rcases Nat.mod_two_eq_zero_or_one n.minFac with he | ho
    · exfalso
      have h2d : 2 ∣ n := dvd_trans (Nat.dvd_of_mod_eq_zero he) hmfd
      omega
    · exact ho
  have hsq := Nat.minFac_sq_le_self (show 0 < n by omega) hp
  have h2m : 2 * n.minFac ≤ n := by nlinarith
  exact ⟨n.minFac, hmfo, by omega, by omega, hmfd⟩

/-- Conversely, a divisor `3 ≤ i ≤ n / 2` disproves primality of `n`. -/
theorem not_prime_of_divisor {n i : Nat} (h3 : 3 ≤ i) (hle : i ≤ n / 2) (hdvd : i ∣ n) :
    ¬Nat.Prime n := fun hp => by
  rcases hp.eq_one_or_self_of_dvd i hdvd with h | h <;> omega

/-- The unbounded tester agrees with primality on all of `Nat`. -/
theorem is_prime_lazy_iff (n : Nat) : is_prime_lazy n = true ↔ Nat.Prime n := by
  unfold is_prime_lazy
  by_cases h1 : n = 1
  · subst h1
    rw [if_pos rfl]
    exact iff_of_false (by simp) (by norm_num)
  · rw [if_neg h1]
    by_cases h2 : n = 2
    · subst h2
      rw [if_pos rfl]
      exact iff_of_true rfl (by norm_num)
    · rw [if_neg h2]
      by_cases heven : n % 2 = 0
      · rw [if_pos heven]
        refine iff_of_false (by simp) fun hp => ?_
        rcases hp.eq_one_or_self_of_dvd 2 (by omega) with h | h <;> omega
      · rw [if_neg heven]
        have h3 : 3 ≤ n := by omega
        rw [lazyLoop_true_iff n (n / 2 + 1) 3 (by omega)]
        constructor
        · intro h
          by_contra hp
          obtain ⟨i, hio, hi3, hile, hidvd⟩ := odd_comp_divisor (by omega) h3 hp
          exact h i (by omega) hile (by omega) hidvd
        · intro hp j hj1 hj2 hj3
          exact fun hdvd => not_prime_of_divisor (by omega) hj2 hdvd hp

/-- The Mersenne tester computes exactly "`m` passes and `floor (log2 (m+1))` passes". -/
theorem is_mersenne_prime_iff (m : Nat) :
    is_mersenne_prime m = true ↔ Nat.Prime m ∧ Nat.Prime (Nat.log2 (m + 1)) := by
  unfold is_mersenne_prime
  rw [Bool.and_eq_true, is_prime_lazy_iff, is_prime_lazy_iff, ilog2_eq_log2]

/-! ### Loop termination: extra fuel does not change any loop's result -/

theorem genLoop_fuel_succ {limit : Int} :
    ∀ (f : Nat) (p : List Int) (a : Int), limit ≤ a + 2 * (f : Int) →
      genLoop limit (f + 1) p a = genLoop limit f p a := by
  intro f
  induction f with
  | zero =>
    intro p a h
    simp only [genLoop]
    rw [if_neg (by push_cast at h; omega)]
  | succ g ih =>
    intro p a h
    conv_lhs => rw [genLoop]
    conv_rhs => rw [genLoop]
    by_cases hlt : a < limit
    · rw [if_pos hlt, if_pos hlt]
      exact ih _ (a + 2) (by push_cast at h ⊢; omega)
    · rw [if_neg hlt, if_neg hlt]

theorem lazyLoop_fuel_succ {n : Nat} :
    ∀ g j : Nat, n / 2 < j + 2 * g → lazyLoop n (g + 1) j = lazyLoop n g j := by
  intro g
  induction g with
  | zero =>
    intro j h
    simp only [lazyLoop]
    rw [if_neg (by omega)]
  | succ f ih =>
    intro j h
    conv_lhs => rw [lazyLoop]
    conv_rhs => rw [lazyLoop]
    by_cases hle : j ≤ n / 2
    · rw [if_pos hle, if_pos hle]
      by_cases hd : n % j = 0
      · rw [if_pos hd, if_pos hd]
      · rw [if_neg hd, if_neg hd]
        exact ih (j + 2) (by omega)
    · rw [if_neg hle, if_neg hle]

/-! ### The fallback after the trial loop is never reached -/

set_option maxRecDepth 40000 in
/-- On the list `is_prime` builds for an input `3 ≤ N < 2^31`, the scan always exits
inside the loop: the defensive post-loop `false` is dead code there. -/
theorem trialLoop_gen_isSome (N : Nat) (h3 : 3 ≤ N) (h31 : N < 2 ^ 31) :
    (trialLoop (N : Int) (plist (max 5 (N / 2 + 1)))).isSome = true := by
  by_cases heven : N % 2 = 0
  · rw [trialLoop_even (by omega) (by omega)]
    rfl
  · by_cases hsmall : N < 72
    · interval_cases N <;> first
        | exact absurd rfl heven
        | decide
    · by_cases hp : Nat.Prime N
      · obtain ⟨P, hPp, hPle, hP24, hPx⟩ := @bert_ex N (by omega) (by omega)
        rw [@trialLoop_prime N hp (by omega) (max 5 (N / 2 + 1)) (by omega)
          P hPp (by omega) hP24 hPx]
        rfl
      · have hq2 : 2 ≤ N.minFac := (Nat.minFac_prime (by omega)).two_le
        have hqsq := Nat.minFac_sq_le_self (show 0 < N by omega) hp
        have hsqrtle : N.minFac ≤ Nat.sqrt N := Nat.le_sqrt.mpr (by nlinarith)
        have h2a : 2 * Nat.sqrt N ≤ N := by
          nlinarith [Nat.sqrt_le N, Nat.le_sqrt.mpr (show 8 * 8 ≤ N by omega)]
        rw [trialLoop_comp (by omega) (by omega) hp (by omega)]
        rfl

/-- M31, the value of `i32::MAX`, is prime (via the Lucas–Lehmer certificate). -/
theorem prime_M31 : Nat.Prime 2147483647 := by
  have h : (mersenne 31).Prime := lucas_lehmer_sufficiency 31 (by norm_num) (by norm_num)
  have he : mersenne 31 = 2147483647 := by norm_num [mersenne]
  rwa [he] at h

/-! ### The claims -/

/-- Claim C1, amended.  The original claim — `is_mersenne_prime m` is true iff
`m = 2^p - 1` for some prime `p` — is false in both directions (see the
counterexample); what the code computes is: true iff `m` is prime and
`floor (log2 (m+1))` is prime. -/
theorem claim_C1 : ∀ m : Nat, m < 2 ^ 128 →
    (is_mersenne_prime m = true ↔ Nat.Prime m ∧ Nat.Prime (Nat.log2 (m + 1))) :=
  fun m _ => is_mersenne_prime_iff m

/-- Claim C1, counterexample to the original statement: `2047 = 2^11 - 1` with `11`
prime, so under the claim's definition it is of Mersenne shape, yet the function
returns `false` (2047 = 23 · 89 is not prime). -/
theorem claim_C1_counterexample :
    is_mersenne_prime 2047 = false ∧ 2047 = 2 ^ 11 - 1 ∧ Nat.Prime 11 :=
  ⟨by decide, by norm_num, by norm_num⟩

/-- Claim C1, witness for the amended theorem at `m = 3`. -/
theorem claim_C1_witness :
    is_mersenne_prime 3 = true ↔ Nat.Prime 3 ∧ Nat.Prime (Nat.log2 (3 + 1)) :=
  claim_C1 3 (by norm_num)

/-- Claim C2, amended.  For limits `L ≥ 4` in the i32 range, `generate_primes L`
returns exactly the primes `p` with `2 ≤ p < L` in strictly ascending order with no
duplicates (`plist L.toNat` is that list, and it is pairwise `<`); but for
`0 ≤ L < 4` the unconditional seed makes it return `[2, 3]`, which contains primes
not below `L` — the original "for every non-negative limit" is false there. -/
theorem claim_C2 : ∀ L : Int, 0 ≤ L → L < 2 ^ 31 →
    ((4 ≤ L → generate_primes L = some (plist L.toNat)) ∧
     (L < 4 → generate_primes L = some [2, 3]) ∧
     List.Pairwise (· < ·) (plist L.toNat)) := by
  intro L h0 h31
  refine ⟨?_, ?_, plist_sorted _⟩
  · intro h4
    rw [generate_primes_eq h0 h31]
    rcases Nat.lt_or_ge L.toNat 5 with h5 | h5
    · rw [show L.toNat = 4 from by omega]
      rw [show max 5 4 = 5 from rfl, plist_five, show plist 4 = [2, 3] from by decide]
    · rw [show max 5 L.toNat = L.toNat from by omega]
  · intro h4
    rw [generate_primes_eq h0 h31, show max 5 L.toNat = 5 from by omega, plist_five]

/-- Claim C2, counterexample to the original statement at limit `0`: the result
contains `3`, which is not a prime below `0`. -/
theorem claim_C2_counterexample :
    generate_primes 0 = some [2, 3] ∧ (3 : Int) ∈ [(2 : Int), 3] ∧ ¬(3 : Int) < 0 :=
  ⟨by decide, by decide, by decide⟩

/-- Claim C2, witness at limit `10`. -/
theorem claim_C2_witness : generate_primes 10 = some (plist (10 : Int).toNat) :=
  (claim_C2 10 (by norm_num) (by norm_num)).1 (by norm_num)

/-- Claim C3: on the whole i32 range, `is_prime n` returns true exactly when `n` is
prime (negative inputs, `0` and `1` all give `false` via `n.toNat` being `0` or `1`). -/
theorem claim_C3 : ∀ n : Int, -(2 ^ 31) ≤ n → n < 2 ^ 31 →
    (is_prime n = true ↔ Nat.Prime n.toNat) := by
  intro n hlb hub
  by_cases hn : 0 ≤ n
  · obtain ⟨N, rfl⟩ : ∃ N : Nat, n = (N : Int) := ⟨n.toNat, by omega⟩
    rw [Int.toNat_natCast]
    exact is_prime_natCast_iff N (by omega)
  · have h1 : is_prime n = false := by
      unfold is_prime
      rw [if_neg (by omega), if_pos (by omega)]
    rw [h1]
    exact iff_of_false (by simp) fun hp => by have := hp.two_le; omega

/-- Claim C3, witness at `11`. -/
theorem claim_C3_witness : is_prime 11 = true ↔ Nat.Prime (11 : Int).toNat :=
  claim_C3 11 (by norm_num) (by norm_num)

/-- Claim C4, amended.  `is_prime i32::MIN = false` holds, but `i32::MAX = 2^31 - 1`
is the Mersenne prime M31, and the code correctly returns `true` for it — the
original claim asserted `false` there. -/
theorem claim_C4 : is_prime (-(2 ^ 31)) = false ∧ is_prime (2 ^ 31 - 1) = true := by
  constructor
  · decide
  · rw [show (2 : Int) ^ 31 - 1 = ((2147483647 : Nat) : Int) from by norm_num]
    exact (is_prime_natCast_iff 2147483647 (by norm_num)).mpr prime_M31

/-- Claim C4, counterexample to the original statement: `is_prime i32::MAX` is `true`
(the claim said `false`). -/
theorem claim_C4_counterexample : is_prime (2 ^ 31 - 1) = true := by
  rw [show (2 : Int) ^ 31 - 1 = ((2147483647 : Nat) : Int) from by norm_num]
  exact (is_prime_natCast_iff 2147483647 (by norm_num)).mpr prime_M31

/-- Claim C5: `is_mersenne_prime m` is true iff `m` is prime and
`floor (log2 (m+1))` is prime; in particular `m = 0` and `m = 1` give `false`. -/
theorem claim_C5 : ∀ m : Nat, m < 2 ^ 128 →
    ((is_mersenne_prime m = true ↔ Nat.Prime m ∧ Nat.Prime (Nat.log2 (m + 1))) ∧
     is_mersenne_prime 0 = false ∧ is_mersenne_prime 1 = false) :=
  fun m _ => ⟨is_mersenne_prime_iff m, by decide, by decide⟩

/-- Claim C5, witness at `m = 7` (`2^3 - 1`, a Mersenne prime). -/
theorem claim_C5_witness :
    (is_mersenne_prime 7 = true ↔ Nat.Prime 7 ∧ Nat.Prime (Nat.log2 (7 + 1))) ∧
    is_mersenne_prime 0 = false ∧ is_mersenne_prime 1 = false :=
  claim_C5 7 (by norm_num)

/-- Claim C6: the unbounded tester is correct — `is_prime_lazy n` is true iff `n` is
prime; and on the odd trial-division path, it returns `false` exactly when some odd
`i` with `3 ≤ i ≤ n / 2` divides `n`. -/
theorem claim_C6 : ∀ n : Nat, n < 2 ^ 128 →
    ((is_prime_lazy n = true ↔ Nat.Prime n) ∧
     (n % 2 = 1 → 3 ≤ n →
       (is_prime_lazy n = false ↔ ∃ i, i % 2 = 1 ∧ 3 ≤ i ∧ i ≤ n / 2 ∧ i ∣ n))) := by
  intro n hn
  refine ⟨is_prime_lazy_iff n, fun hodd h3 => ?_⟩
  constructor
  · intro hf
    have hp : ¬Nat.Prime n := fun hp => by
      rw [(is_prime_lazy_iff n).mpr hp] at hf
      cases hf
    exact odd_comp_divisor hodd h3 hp
  · rintro ⟨i, hio, hi3, hile, hidvd⟩
    have hp : ¬Nat.Prime n := not_prime_of_divisor hi3 hile hidvd
    cases hb : is_prime_lazy n with
    | false => rfl
    | true => exact absurd ((is_prime_lazy_iff n).mp hb) hp

/-- Claim C6, witness at `97`. -/
theorem claim_C6_witness :
    (is_prime_lazy 97 = true ↔ Nat.Prime 97) ∧
    (97 % 2 = 1 → 3 ≤ 97 →
      (is_prime_lazy 97 = false ↔ ∃ i, i % 2 = 1 ∧ 3 ≤ i ∧ i ≤ 97 / 2 ∧ i ∣ 97)) :=
  claim_C6 97 (by norm_num)

/-- Claim C7: `generate_primes` aborts (returns `none`, the model of `panic!`) exactly
on negative limits; the internal call made by `is_prime` for any `n ≥ 2` never aborts;
and the `(m + 1).ilog2()` argument computed by `is_mersenne_prime` cannot overflow
`u128`, because `is_prime_lazy m = true` forces `m` prime, while `2^128 - 1` is
divisible by 3 — so no other operation aborts. -/
theorem claim_C7 : ∀ (limit n : Int) (m : Nat), 2 ≤ n → m < 2 ^ 128 →
    ((generate_primes limit = none ↔ limit < 0) ∧
     generate_primes (n / 2 + 1) ≠ none ∧
     (is_prime_lazy m = true → m + 1 < 2 ^ 128)) := by
  intro limit n m hn hm
  refine ⟨?_, ?_, ?_⟩
  · unfold generate_primes
    by_cases h : limit < 0
    · rw [if_pos h]
      simpa using h
    · rw [if_neg h]
      simpa using h
  · unfold generate_primes
    rw [if_neg (by omega)]
    simp
  · intro hlz
    have hp : Nat.Prime m := (is_prime_lazy_iff m).mp hlz
    by_contra hc
    have hm1 : m = 2 ^ 128 - 1 := by omega
    subst hm1
    have h3 : (3 : Nat) ∣ 2 ^ 128 - 1 := by decide
    rcases hp.eq_one_or_self_of_dvd 3 h3 with h | h <;> omega

/-- Claim C7, witness at `limit = -5`, `n = 9`, `m = 7`. -/
theorem claim_C7_witness :
    (generate_primes (-5) = none ↔ (-5 : Int) < 0) ∧
    generate_primes ((9 : Int) / 2 + 1) ≠ none ∧
    (is_prime_lazy 7 = true → 7 + 1 < 2 ^ 128) :=
  claim_C7 (-5) 9 7 (by norm_num) (by norm_num)

/-- Claim C8: the defensive post-loop `return false` is unreachable.  For every i32
input `3 ≤ n < 2^31`, the scan of the generated list exits inside the loop
(`trialLoop ≠ none`), and likewise for every odd candidate `5 ≤ k < 2^31` tested by
`is_prime_list` against the previously found primes during sequential generation. -/
theorem claim_C8 : ∀ (n : Int) (k : Nat), 3 ≤ n → n < 2 ^ 31 → k % 2 = 1 → 5 ≤ k →
    k < 2 ^ 31 →
    (trialLoop n ((generate_primes (n / 2 + 1)).getD []) ≠ none ∧
     trialLoop (k : Int) (plist k) ≠ none) := by
  intro n k h3 h31 hko hk5 hk31
  constructor
  · obtain ⟨N, rfl⟩ : ∃ N : Nat, n = (N : Int) := ⟨n.toNat, by omega⟩
    rw [generate_primes_eq (by omega) (by omega),
      show ((N : Int) / 2 + 1).toNat = N / 2 + 1 from by omega, Option.getD_some]
    have h := trialLoop_gen_isSome N (by omega) (by omega)
    intro hnone
    rw [hnone] at h
    cases h
  · by_cases hp : Nat.Prime k
    · rw [trialLoop_plist_self_of_prime hp hk5 hk31]
      simp
    · rw [trialLoop_plist_self_of_comp hp hk5 hk31]
      simp

/-- Claim C8, witness at `n = 9`, `k = 9`. -/
theorem claim_C8_witness :
    trialLoop 9 ((generate_primes ((9 : Int) / 2 + 1)).getD []) ≠ none ∧
    trialLoop ((9 : Nat) : Int) (plist 9) ≠ none :=
  claim_C8 9 9 (by norm_num) (by norm_num) (by norm_num) (by norm_num) (by norm_num)

/-- Claim C9: every loop terminates — adding fuel beyond the loop's exit point does not
change any result, so the fuel passed by `generate_primes` (for `limit ≥ 0`) and by
`is_prime_lazy` always suffices, and all embedded operations are total functions. -/
theorem claim_C9 : ∀ (limit : Int) (p : List Int) (a : Int) (f : Nat) (N j g : Nat),
    limit ≤ a + 2 * (f : Int) → N / 2 < j + 2 * g →
    (genLoop limit (f + 1) p a = genLoop limit f p a ∧
     lazyLoop N (g + 1) j = lazyLoop N g j) :=
  fun _ p a f _ j g h1 h2 => ⟨genLoop_fuel_succ f p a h1, lazyLoop_fuel_succ g j h2⟩

/-- Claim C9, witness. -/
theorem claim_C9_witness :
    genLoop 10 4 [2, 3] 5 = genLoop 10 3 [2, 3] 5 ∧ lazyLoop 9 3 3 = lazyLoop 9 2 3 :=
  claim_C9 10 [2, 3] 5 3 9 3 2 (by norm_num) (by norm_num)

/-- Claim C10: the bounded and unbounded testers agree on their shared domain, the
nonnegative i32 inputs. -/
theorem claim_C10 : ∀ n : Int, 0 ≤ n → n < 2 ^ 31 → is_prime n = is_prime_lazy n.toNat := by
  intro n h0 h31
  obtain ⟨N, rfl⟩ : ∃ N : Nat, n = (N : Int) := ⟨n.toNat, by omega⟩
  rw [Int.toNat_natCast]
  have h1 := is_prime_natCast_iff N (by omega)
  have h2 := is_prime_lazy_iff N
  by_cases hp : Nat.Prime N
  · rw [h1.mpr hp, h2.mpr hp]
  · have e1 : is_prime ((N : Nat) : Int) = false := by
      cases hb : is_prime ((N : Nat) : Int) with
      | false => rfl
      | true => exact absurd (h1.mp hb) hp
    have e2 : is_prime_lazy N = false := by
      cases hb : is_prime_lazy N with
      | false => rfl
      | true => exact absurd (h2.mp hb) hp
    rw [e1, e2]

/-- Claim C10, witness at `11`. -/
theorem claim_C10_witness : is_prime 11 = is_prime_lazy (11 : Int).toNat :=
  claim_C10 11 (by norm_num) (by norm_num)

